import Mathlib

/-!
Verification of the media-server core, shallowly embedded from the
JavaScript source: the name-normalization transform and reorganization
engine, the Jackett result ranker, the qBittorrent session-managed client,
and the completion reconciler.  Strings are modelled as `List Char`
(`String.data`), byte counts as `Nat`, and JavaScript numbers used in size
arithmetic as `ℚ` (the divisions by powers of two that occur are exact in
IEEE doubles for the magnitudes involved).  Filesystem and network effects
are modelled by explicit environments and action traces.
-/

namespace MediaServer

open scoped List

/-! ### Name normalization (`cleanName` chain in `organizeDownloads`)

The source computes
`folder.name.replace(/\.(mkv|mp4|avi)$/i, '').replace(/[\[\]()]/g, '')
 .replace(/[._-]+/g, ' ').replace(/\s+/g, ' ').trim()`.
-/

/-- JavaScript `\s` (WhiteSpace ∪ LineTerminator), the class used by the
`/\s+/g` replacement and by `String.prototype.trim`. -/
def jsWhitespace (c : Char) : Bool :=
  let n := c.toNat
  n == 0x09 || n == 0x0A || n == 0x0B || n == 0x0C || n == 0x0D || n == 0x20 ||
  n == 0xA0 || n == 0x1680 || (decide (0x2000 ≤ n) && decide (n ≤ 0x200A)) ||
  n == 0x2028 || n == 0x2029 || n == 0x202F || n == 0x205F || n == 0x3000 ||
  n == 0xFEFF

/-- The character class `[._-]` of the dot/underscore/hyphen collapsing step. -/
def dotDashChar (c : Char) : Bool :=
  c == '.' || c == '_' || c == '-'

/-- The character class `[\[\]()]` of the bracket-removal step. -/
def bracketChar (c : Char) : Bool :=
  c == '[' || c == ']' || c == '(' || c == ')'

/-- `replace(/X+/g, rep)` for a character class `p`: every maximal run of
`p`-characters is replaced by the single character `rep`. -/
def collapseRuns (p : Char → Bool) (rep : Char) : List Char → List Char
  | [] => []
  | c :: cs =>
    if p c then rep :: collapseRuns p rep (cs.dropWhile p)
    else c :: collapseRuns p rep cs
termination_by l => l.length
decreasing_by
  · have h := (cs.dropWhile_sublist p).length_le
    simp only [List.length_cons]
    omega
  · simp only [List.length_cons]
    omega

/-- The trailing-extension patterns of `/\.(mkv|mp4|avi)$/i`: one list of
admissible characters per position (the `i` flag makes letters match either
case; `.` and `4` match only themselves). -/
def extPatterns : List (List (List Char)) :=
  [ [['.'], ['m', 'M'], ['k', 'K'], ['v', 'V']],
    [['.'], ['m', 'M'], ['p', 'P'], ['4']],
    [['.'], ['a', 'A'], ['v', 'V'], ['i', 'I']] ]

/-- Whether `l` matches a positional pattern exactly. -/
def matchesAt (l : List Char) (pat : List (List Char)) : Bool :=
  l.length == pat.length && (l.zip pat).all (fun cp => decide (cp.1 ∈ cp.2))

/-- `replace(/\.(mkv|mp4|avi)$/i, '')`: if the final four characters match
one of the extension patterns, drop them (the regex is anchored at the end
of input, so at most one occurrence is removed). -/
def stripExt (l : List Char) : List Char :=
  if extPatterns.any (fun pat =>
      decide (4 ≤ l.length) && matchesAt (l.drop (l.length - 4)) pat) then
    l.take (l.length - 4)
  else l

/-- Leading-whitespace removal (half of `String.prototype.trim`). -/
def trimLeft (l : List Char) : List Char := l.dropWhile jsWhitespace

/-- Trailing-whitespace removal (the other half of `trim`). -/
def trimRight (l : List Char) : List Char :=
  (l.reverse.dropWhile jsWhitespace).reverse

/-- `String.prototype.trim`. -/
def jsTrim (l : List Char) : List Char := trimRight (trimLeft l)

/-- The full normalization chain applied to a folder name, in source order:
strip a trailing video extension, delete brackets/parentheses, collapse
dot/underscore/hyphen runs to single spaces, collapse whitespace runs to
single spaces, trim. -/
def cleanName (l : List Char) : List Char :=
  jsTrim (collapseRuns jsWhitespace ' '
    (collapseRuns dotDashChar ' '
      ((stripExt l).filter (fun c => !bracketChar c))))

/-- `cleanName` lifted to `String`. -/
def normalizeName (s : String) : String := ⟨cleanName s.data⟩

/-- The shape of every `cleanName` output: no dot/underscore/hyphen, no
bracket, every whitespace character is a plain space, no two adjacent
whitespace characters, and no leading or trailing whitespace.  Every list
of this shape is a fixed point of `cleanName`. -/
def cleanNameInvariant (l : List Char) : Prop :=
  (∀ c ∈ l, dotDashChar c = false) ∧
  (∀ c ∈ l, bracketChar c = false) ∧
  (∀ c ∈ l, jsWhitespace c = true → c = ' ') ∧
  l.Chain' (fun a b => ¬(jsWhitespace a = true ∧ jsWhitespace b = true)) ∧
  (∀ b ∈ l.head?, jsWhitespace b = false) ∧
  (∀ b ∈ l.getLast?, jsWhitespace b = false)

/-! ### Result ranker (`searchJackett` filter/sort/slice/map chain) -/

/-- A raw Jackett result, restricted to the fields `searchJackett` reads.
`Size` is a byte count; optional numeric fields model absent JSON fields as
`none` (JavaScript falsiness additionally treats `0` as absent). -/
structure RawResult where
  Title : String
  Size : Option Nat
  Seeders : Option Nat
  Peers : Option Nat
  MagnetUri : Option String
  Link : Option String
  Tracker : String
  PublishDate : Option String
deriving DecidableEq

/-- JavaScript truthiness of an optional number (`undefined` and `0` are
falsy). -/
def natTruthy : Option Nat → Bool
  | none => false
  | some n => n != 0

/-- JavaScript truthiness of an optional string (`undefined` and `''` are
falsy). -/
def strTruthy : Option String → Bool
  | none => false
  | some s => !s.isEmpty

/-- `a || b` on optional strings, as in `result.MagnetUri || result.Link`. -/
def jsOrStr (a b : Option String) : Option String :=
  if strTruthy a then a else b

/-- `result.Size ? result.Size / (1024*1024*1024) : 0`, in gigabytes. -/
def sizeGB (r : RawResult) : ℚ :=
  match r.Size with
  | some n => if n ≠ 0 then (n : ℚ) / (1024 * 1024 * 1024) else 0
  | none => 0

/-- The size-band filter of the ranker: `sizeGB >= 2 && sizeGB <= 15`. -/
def keepSize (r : RawResult) : Bool :=
  decide (2 ≤ sizeGB r) && decide (sizeGB r ≤ 15)

/-- `result.Seeders || 0`. -/
def seedersD (r : RawResult) : Nat := r.Seeders.getD 0

/-- The comparator `(a, b) => (b.Seeders || 0) - (a.Seeders || 0)` orders `a`
no later than `b` exactly when `seedersD b ≤ seedersD a`; JavaScript's
`Array.prototype.sort` is stable, so the sort is embedded as a stable merge
sort under this ordering. -/
def seedDesc (a b : RawResult) : Bool := decide (seedersD b ≤ seedersD a)

/-- The survivors of the size filter, in indexer-reported order. -/
def survivors (rs : List RawResult) : List RawResult := rs.filter keepSize

/-- The survivors sorted by seeders descending (stable). -/
def ranked (rs : List RawResult) : List RawResult :=
  List.mergeSort (survivors rs) seedDesc

/-- The `size` field of a formatted result: either the gigabyte value carried
by the `"… GB"` string (the `toFixed(2)` rendering is abstracted to the exact
rational it displays) or the literal `'Unknown'` marker. -/
inductive SizeText where
  | gb (value : ℚ)
  | unknown
deriving DecidableEq

/-- A formatted search result, as produced by the final `.map`. -/
structure SearchResult where
  title : String
  size : SizeText
  seeders : Nat
  peers : Nat
  magnetLink : Option String
  indexer : String
  publishDate : Option String
deriving DecidableEq

/-- The per-result formatting step of `searchJackett`. -/
def formatResult (r : RawResult) : SearchResult :=
  { title := r.Title
    size :=
      if natTruthy r.Size then .gb ((r.Size.getD 0 : ℚ) / 1024 / 1024 / 1024)
      else .unknown
    seeders := r.Seeders.getD 0
    peers := r.Peers.getD 0
    magnetLink := jsOrStr r.MagnetUri r.Link
    indexer := r.Tracker
    publishDate := r.PublishDate }

/-- The ranking function: filter by size band, sort by seeders descending
(stable), truncate to 10, format. -/
def rank (rs : List RawResult) : List SearchResult :=
  ((ranked rs).take 10).map formatResult

/-! ### qBittorrent client (`QBittorrentService.addTorrent` / `getTorrents`)

Network interaction is embedded by scripting the responses of successive
HTTP calls.  `addTorrent` is driven by the list of responses the
`/api/v2/torrents/add` endpoint returns for its successive POSTs; logins
performed by `ensureSession` are assumed to succeed and hand out the tokens
`tokens 0, tokens 1, …` in order (the claims under study concern the retry
behaviour of the add endpoint, not login failure, which propagates from
`ensureSession` before the `try` block). -/

/-- One response of the add endpoint as seen through axios: HTTP 200, an
error carrying `error.response.status`, or a network error with no
response attached. -/
inductive AddResp where
  | ok
  | errStatus (status : Nat)
  | netErr (msg : String)
deriving DecidableEq

/-- `_isAuthError`: true iff the error has a response whose status is 401
or 403. -/
def isAuthError : AddResp → Bool
  | .errStatus s => s == 401 || s == 403
  | _ => false

/-- Observable outcome of a call to `addTorrent`: success or a thrown error,
each with the total number of HTTP calls made to the add endpoint, plus the
session stored afterwards; `moreAttempts` records that the method consumed
the whole response script and was still about to issue another add request. -/
inductive AddOutcome where
  | success (attempts : Nat) (sessionId : Option String)
  | failure (attempts : Nat) (resp : AddResp)
  | moreAttempts
deriving DecidableEq

/-- `addTorrent`, embedded over the script of add-endpoint responses.
`sid` is `this.sessionId`, `logins` counts completed logins (so
`ensureSession` installs `tokens logins` when `sid` is `null`).  On a
response for which `_isAuthError` holds, the method sets
`this.sessionId = null` and recurses on itself — the source contains no
retry counter. -/
def addTorrentAux (tokens : Nat → String) :
    Option String → Nat → Nat → List AddResp → AddOutcome
  | _, _, _, [] => .moreAttempts
  | sid, logins, attempts, r :: rest =>
    let sid' := match sid with | some s => s | none => tokens logins
    let logins' := match sid with | some _ => logins | none => logins + 1
    match r with
    | .ok => .success (attempts + 1) (some sid')
    | resp =>
      if isAuthError resp then
        addTorrentAux tokens none logins' (attempts + 1) rest
      else .failure (attempts + 1) resp

/-- An external call to `addTorrent` on a service with no stored session. -/
def addTorrent (tokens : Nat → String) (script : List AddResp) : AddOutcome :=
  addTorrentAux tokens none 0 0 script

/-- A torrent record as returned by the daemon's listing endpoint
(restricted to the fields this system reads). -/
structure TorrentRecord where
  hash : String
  name : String
  progress : ℚ
deriving DecidableEq

/-- The JSON body of a torrents/info response as axios delivers it in
`response.data`: `null`, absent (`undefined`), a string, or an array. -/
inductive Body where
  | jsNull
  | jsUndefined
  | str (s : String)
  | arr (ts : List TorrentRecord)
deriving DecidableEq

/-- JavaScript truthiness of a response body (`null`, `undefined` and the
empty string are falsy; every array, including `[]`, is truthy). -/
def bodyTruthy : Body → Bool
  | .jsNull => false
  | .jsUndefined => false
  | .str s => !s.isEmpty
  | .arr _ => true

/-- The value returned by the successful path of `getTorrents`:
`response.data || []`.  The filters are serialized into the query string
and do not influence this shape. -/
def getTorrentsResult (filters : List (String × String)) (data : Body) :
    Body :=
  if bodyTruthy data then data else .arr []

/-! ### Reorganization engine (`organizeDownloads`) -/

/-- Fixed directories of the engine. -/
def downloadsDir : String := "/app/downloads"

/-- Destination library root. -/
def moviesDir : String := "/app/movies"

/-- `path.join` for the simple two-segment joins the engine performs. -/
def pathJoin (a b : String) : String := a ++ "/" ++ b

/-- A top-level entry of the downloads directory together with the
filesystem behaviour the run will observe for it: whether
`fs.access(destPath)` succeeds (destination already exists), and the errors,
if any, thrown by `fs.cp` and `fs.rm`. -/
structure DirEntry where
  name : String
  isDirectory : Bool
  destExists : Bool
  copyError : Option String
  rmError : Option String
deriving DecidableEq

/-- A destructive filesystem operation attempted by the engine. -/
inductive FsAction where
  | copy (src dst : String)
  | remove (target : String)
deriving DecidableEq

/-- An element of the run-level `organized` list. -/
structure OrganizedEntry where
  original : String
  organized : String
  path : String
deriving DecidableEq

/-- An element of the run-level `errors` list. -/
structure ErrorEntry where
  folder : String
  error : String
  destination : String
deriving DecidableEq

/-- The run-level result `{ organized, errors }`. -/
structure OrganizeResult where
  organized : List OrganizedEntry
  errors : List ErrorEntry
deriving DecidableEq

/-- The error message recorded when the destination already exists. -/
def destExistsMsg : String := "Destination already exists"

/-- Per-item result: one entry pushed to `organized` or one to `errors`. -/
inductive ItemOutcome where
  | organizedItem (e : OrganizedEntry)
  | errorItem (e : ErrorEntry)
deriving DecidableEq

/-- The loop body of `organizeDownloads` for one folder: check the
destination, else copy then remove, recording the entry the code pushes and
the destructive operations it attempts, in order. -/
def organizeItem (f : DirEntry) : ItemOutcome × List FsAction :=
  let sourcePath := pathJoin downloadsDir f.name
  let clean := normalizeName f.name
  let destPath := pathJoin moviesDir clean
  if f.destExists then
    (.errorItem ⟨f.name, destExistsMsg, clean⟩, [])
  else
    match f.copyError with
    | some e => (.errorItem ⟨f.name, e, clean⟩, [.copy sourcePath destPath])
    | none =>
      match f.rmError with
      | some e =>
        (.errorItem ⟨f.name, e, clean⟩,
          [.copy sourcePath destPath, .remove sourcePath])
      | none =>
        (.organizedItem ⟨f.name, clean, destPath⟩,
          [.copy sourcePath destPath, .remove sourcePath])

/-- The `for (const folder of folders)` loop: every folder is processed and
contributes exactly one entry; the traces of attempted filesystem
operations are concatenated in order. -/
def organizeItems : List DirEntry → OrganizeResult × List FsAction
  | [] => (⟨[], []⟩, [])
  | f :: rest =>
    let step := organizeItem f
    let tail := organizeItems rest
    match step.1 with
    | .organizedItem e =>
      (⟨e :: tail.1.organized, tail.1.errors⟩, step.2 ++ tail.2)
    | .errorItem e =>
      (⟨tail.1.organized, e :: tail.1.errors⟩, step.2 ++ tail.2)

/-- Environment of one whole `organizeDownloads` run: accessibility of the
two roots and the directory listing (entries carry their `isDirectory`
flag; non-directories are filtered out by the code). -/
structure OrganizeEnv where
  downloadsAccessible : Bool
  moviesAccessible : Bool
  entries : List DirEntry
deriving DecidableEq

/-- `organizeDownloads`: inaccessible roots abort the whole run; otherwise
every directory entry is processed. -/
def organizeDownloads (env : OrganizeEnv) :
    Except String (OrganizeResult × List FsAction) :=
  if !env.downloadsAccessible then .error "downloads directory inaccessible"
  else if !env.moviesAccessible then .error "movies directory inaccessible"
  else
    let folders := env.entries.filter (fun i => i.isDirectory)
    if folders.isEmpty then .ok (⟨[], []⟩, [])
    else .ok (organizeItems folders)

/-- Modelled from the spec: the per-item `OrganizeOutcome` data model
`{organized(original, new name, destination) | skipped(destination-exists) |
failed(filesystem error)}`; the code realizes `skipped` as an `errors` entry
whose message is the destination-exists string. -/
inductive OrganizeOutcome where
  | organizedOutcome (original newName destPath : String)
  | skipped
  | failed (reason : String)
deriving DecidableEq

/-- Abstraction of a code-level per-item entry to the spec's
`OrganizeOutcome` variant. -/
def specOutcome : ItemOutcome → OrganizeOutcome
  | .organizedItem e => .organizedOutcome e.original e.organized e.path
  | .errorItem e => if e.error = destExistsMsg then .skipped else .failed e.error

/-! ### Completion reconciler (`checkForCompletedTorrents`) -/

/-- The module-level mutable state: `processedTorrents` and
`organizationRunning`. -/
structure ReconcilerState where
  processedTorrents : Finset String
  organizationRunning : Bool

/-- What the environment does during one tick: the result of
`getTorrents({filter: 'completed'})`, the result of `organizeDownloads()`,
and whether the optional Jellyfin scan succeeds (scan failures are caught
and only logged, so they never influence the state). -/
structure TickEnv where
  torrents : Except String (List TorrentRecord)
  organize : Except String OrganizeResult
  scanOk : Bool

/-- The selection filter: completed-listed torrents whose hash is not yet
processed and whose progress is exactly 1. -/
def selectNew (processed : Finset String) (ts : List TorrentRecord) :
    List TorrentRecord :=
  ts.filter (fun t => decide (t.hash ∉ processed) && decide (t.progress = 1))

/-- `forEach(t => processedTorrents.add(t.hash))`. -/
def markProcessed (s : Finset String) (sel : List TorrentRecord) :
    Finset String :=
  sel.foldl (fun acc t => insert t.hash acc) s

/-- Observable outcome of a tick: skipped the run (guard held or no
service), the torrent fetch threw (caught and logged), or the body ran with
the given selection; `organizeRun` is `none` when the selection was empty
(the organize step is not invoked) and otherwise records the organize
result or its error (caught and logged). -/
inductive TickOutcome where
  | skippedTick
  | fetchFailed (msg : String)
  | ran (selected : List TorrentRecord)
      (organizeRun : Option (Except String OrganizeResult))

/-- The torrents selected by a tick (empty unless the body ran). -/
def selectedOf : TickOutcome → List TorrentRecord
  | .ran sel _ => sel
  | _ => []

/-- One invocation of `checkForCompletedTorrents`.  The guard test happens
first; the body sets the guard, fetches, selects, marks every selected hash
as processed before invoking the organize step, and the `finally` clause
clears the guard on every path out of the body. -/
def tick (qbAvailable : Bool) (env : TickEnv) (s : ReconcilerState) :
    ReconcilerState × TickOutcome :=
  if !qbAvailable || s.organizationRunning then (s, .skippedTick)
  else
    match env.torrents with
    | .error e => (⟨s.processedTorrents, false⟩, .fetchFailed e)
    | .ok ts =>
      let selected := selectNew s.processedTorrents ts
      if selected.isEmpty then (⟨s.processedTorrents, false⟩, .ran selected none)
      else
        let processed := markProcessed s.processedTorrents selected
        match env.organize with
        | .error e => (⟨processed, false⟩, .ran selected (some (.error e)))
        | .ok res => (⟨processed, false⟩, .ran selected (some (.ok res)))

/-- A sequence of timer ticks. -/
def runTicks (qbAvailable : Bool) :
    ReconcilerState → List TickEnv → ReconcilerState × List TickOutcome
  | s, [] => (s, [])
  | s, e :: es =>
    let step := tick qbAvailable e s
    let rest := runTicks qbAvailable step.1 es
    (rest.1, step.2 :: rest.2)

/-! ### Theorems: session-managed client (C1, C10) -/

theorem addTorrentAux_authLoop (tokens : Nat → String) (logins attempts : Nat) :
    ∀ n, addTorrentAux tokens none logins attempts
      (List.replicate n (.errStatus 401)) = .moreAttempts := by
  intro n
  induction n generalizing logins attempts with
  | zero => rfl
  | succ n ih =>
    rw [List.replicate_succ]
    simpa [addTorrentAux, isAuthError] using ih (logins + 1) (attempts + 1)

/-- C1: the source's own contract ("Try to re-login once on auth error")
and the spec demand that an authentication-class failure of the add
endpoint be retried exactly once, a second one propagating as an error.
The code instead recurses with no retry bound: after two consecutive 401
responses it issues a third HTTP add request (and succeeds if that one
does), and for every `n` a script of `n` consecutive 401 responses leaves
the method still recursing rather than propagating an error. -/
theorem addTorrent_retry_unbounded :
    (∀ tokens : Nat → String,
      addTorrent tokens [.errStatus 401, .errStatus 401, .ok] =
        .success 3 (some (tokens 2))) ∧
    (∀ (tokens : Nat → String) (n : Nat),
      addTorrent tokens (List.replicate n (.errStatus 401)) = .moreAttempts) := by
  refine ⟨fun tokens => rfl, fun tokens n => ?_⟩
  exact addTorrentAux_authLoop tokens 0 0 n

/-- C10: the successful path of `getTorrents` returns `response.data || []`:
a `null`, `undefined` or empty-string body yields the empty array, an array
body is returned as is, and the result is never `null` or `undefined`,
whatever the filter argument. -/
theorem getTorrents_always_array :
    (∀ filters, getTorrentsResult filters .jsNull = .arr [] ∧
      getTorrentsResult filters .jsUndefined = .arr [] ∧
      getTorrentsResult filters (.str "") = .arr []) ∧
    (∀ filters d, getTorrentsResult filters d ≠ .jsNull ∧
      getTorrentsResult filters d ≠ .jsUndefined) ∧
    (∀ filters ts, getTorrentsResult filters (.arr ts) = .arr ts) := by
  refine ⟨fun filters => ⟨rfl, rfl, rfl⟩, fun filters d => ?_, fun filters ts => rfl⟩
  cases d <;> simp [getTorrentsResult, bodyTruthy] <;> split <;> simp

/-! ### Theorems: completion reconciler (C2, C8) -/

theorem mem_markProcessed {x : String} :
    ∀ (sel : List TorrentRecord) (s : Finset String),
      x ∈ markProcessed s sel ↔ x ∈ s ∨ ∃ t ∈ sel, t.hash = x
  | [], s => by simp [markProcessed]
  | t :: ts, s => by
    have ih := mem_markProcessed (x := x) ts (insert t.hash s)
    simp only [markProcessed, List.foldl_cons] at ih ⊢
    rw [ih]
    simp only [Finset.mem_insert, List.mem_cons]
    constructor
    · rintro ((h | h) | h)
      · exact .inr ⟨t, .inl rfl, h.symm⟩
      · exact .inl h
      · obtain ⟨u, hu, hx⟩ := h
        exact .inr ⟨u, .inr hu, hx⟩
    · rintro (h | ⟨u, (rfl | hu), hx⟩)
      · exact .inl (.inr h)
      · exact .inl (.inl hx.symm)
      · exact .inr ⟨u, hu, hx⟩

theorem tick_selected_fresh (qb : Bool) (env : TickEnv) (s : ReconcilerState) :
    ∀ t ∈ selectedOf (tick qb env s).2,
      t.hash ∉ s.processedTorrents ∧
      t.hash ∈ (tick qb env s).1.processedTorrents := by
  intro t ht
  by_cases hg : (!qb || s.organizationRunning) = true
  · simp [tick, hg, selectedOf] at ht
  · rw [tick, if_neg hg] at ht ⊢
    match henv : env.torrents with
    | .error e => simp [henv, selectedOf] at ht
    | .ok ts =>
      simp only [henv] at ht ⊢
      by_cases hsel : (selectNew s.processedTorrents ts).isEmpty
      · rw [if_pos hsel] at ht
        simp only [selectedOf] at ht
        rw [List.isEmpty_iff] at hsel
        rw [hsel] at ht
        simp at ht
      · rw [if_neg hsel] at ht ⊢
        have hmem : t ∈ selectNew s.processedTorrents ts := by
          match horg : env.organize with
          | .error e => rw [horg] at ht; simpa [selectedOf] using ht
          | .ok res => rw [horg] at ht; simpa [selectedOf] using ht
        have hfresh : t.hash ∉ s.processedTorrents := by
          have := List.mem_filter.mp hmem
          simp only [Bool.and_eq_true, decide_eq_true_eq] at this
          exact this.2.1
        refine ⟨hfresh, ?_⟩
        have hin : t.hash ∈ markProcessed s.processedTorrents
            (selectNew s.processedTorrents ts) :=
          (mem_markProcessed _ _).mpr (.inr ⟨t, hmem, rfl⟩)
        match horg : env.organize with
        | .error e => simpa using hin
        | .ok res => simpa using hin

theorem tick_processed_mono (qb : Bool) (env : TickEnv) (s : ReconcilerState) :
    s.processedTorrents ⊆ (tick qb env s).1.processedTorrents := by
  by_cases hg : (!qb || s.organizationRunning) = true
  · simp [tick, hg]
  · rw [tick, if_neg hg]
    match henv : env.torrents with
    | .error e => simp
    | .ok ts =>
      by_cases hsel : (selectNew s.processedTorrents ts).isEmpty
      · simp [hsel]
      · simp only [if_neg hsel]
        have hsub : s.processedTorrents ⊆
            markProcessed s.processedTorrents (selectNew s.processedTorrents ts) := by
          intro x hx
          exact (mem_markProcessed _ _).mpr (.inl hx)
        match horg : env.organize with
        | .error e => simpa using hsub
        | .ok res => simpa using hsub

theorem runTicks_never_reselect (qb : Bool) (h : String) :
    ∀ (envs : List TickEnv) (s : ReconcilerState),
      h ∈ s.processedTorrents →
      ∀ o ∈ (runTicks qb s envs).2, ∀ t ∈ selectedOf o, t.hash ≠ h
  | [], s, hmem => by simp [runTicks]
  | e :: es, s, hmem => by
    intro o ho t ht
    simp only [runTicks, List.mem_cons] at ho
    rcases ho with rfl | ho
    · intro hhash
      exact (tick_selected_fresh qb e s t ht).1 (hhash ▸ hmem)
    · exact runTicks_never_reselect qb h es (tick qb e s).1
        (tick_processed_mono qb e s hmem) o ho t ht

/-- C2: in every tick, each newly selected torrent (completed listing,
progress exactly 1, hash not yet processed) has its hash in the processed
set held at the point the organize step is invoked — in particular the hash
is still recorded when the organize step fails — and a hash that is in the
processed set is never selected by any later tick. -/
theorem reconciler_at_most_once :
    (∀ qb env s, ∀ t ∈ selectedOf (tick qb env s).2,
      t.hash ∉ s.processedTorrents ∧
      t.hash ∈ (tick qb env s).1.processedTorrents) ∧
    (∀ qb env s, s.processedTorrents ⊆ (tick qb env s).1.processedTorrents) ∧
    (∀ qb (s : ReconcilerState) env msg, env.organize = .error msg →
      ∀ t ∈ selectedOf (tick qb env s).2,
        t.hash ∈ (tick qb env s).1.processedTorrents) ∧
    (∀ qb (s : ReconcilerState) envs h, h ∈ s.processedTorrents →
      ∀ o ∈ (runTicks qb s envs).2, ∀ t ∈ selectedOf o, t.hash ≠ h) :=
  ⟨tick_selected_fresh, tick_processed_mono,
    fun qb s env msg _ t ht => (tick_selected_fresh qb env s t ht).2,
    fun qb s envs h hmem => runTicks_never_reselect qb h envs s hmem⟩

/-- Witness for C2 at a concrete tick: one fresh completed torrent whose
organize step fails is marked processed anyway and is not reselected by a
later tick. -/
theorem reconciler_at_most_once_witness :
    (("h1" : String) ∉ (∅ : Finset String) ∧
      ("h1" : String) ∈
        (tick true ⟨.ok [⟨"h1", "Movie", 1⟩], .error "boom", true⟩
          ⟨∅, false⟩).1.processedTorrents) ∧
    (∀ o ∈ (runTicks true ⟨{"h1"}, false⟩
        [⟨.ok [⟨"h1", "Movie", 1⟩], .error "boom", true⟩]).2,
      ∀ t ∈ selectedOf o, t.hash ≠ "h1") := by
  constructor
  · have := reconciler_at_most_once.1 true
      ⟨.ok [⟨"h1", "Movie", 1⟩], .error "boom", true⟩ ⟨∅, false⟩
      ⟨"h1", "Movie", 1⟩ (by decide)
    exact this
  · exact reconciler_at_most_once.2.2.2 true ⟨{"h1"}, false⟩
      [⟨.ok [⟨"h1", "Movie", 1⟩], .error "boom", true⟩] "h1" (by decide)

/-- C8: a tick that finds the guard set returns immediately with the state
unchanged and a silent skip outcome, and a tick that actually enters the
body leaves the guard cleared on every exit path (fetch error, empty
selection, organize error or success). -/
theorem reconciler_guard :
    (∀ qb env (s : ReconcilerState), s.organizationRunning = true →
      tick qb env s = (s, .skippedTick)) ∧
    (∀ qb env (s : ReconcilerState), s.organizationRunning = false →
      (tick qb env s).1.organizationRunning = false) := by
  constructor
  · intro qb env s hrun
    simp [tick, hrun]
  · intro qb env s hrun
    by_cases hg : (!qb || s.organizationRunning) = true
    · simp only [tick, hg, if_true]
      exact hrun
    · rw [tick, if_neg hg]
      match henv : env.torrents with
      | .error e => simp
      | .ok ts =>
        by_cases hsel : (selectNew s.processedTorrents ts).isEmpty
        · simp [hsel]
        · simp only [if_neg hsel]
          match horg : env.organize with
          | .error e => simp
          | .ok res => simp

/-- Witness for C8: a guarded tick is a no-op, and an unguarded tick whose
body throws in the organize step still ends with the guard cleared. -/
theorem reconciler_guard_witness :
    tick true ⟨.ok [⟨"h1", "Movie", 1⟩], .error "boom", true⟩ ⟨∅, true⟩ =
      (⟨∅, true⟩, .skippedTick) ∧
    (tick true ⟨.ok [⟨"h1", "Movie", 1⟩], .error "boom", true⟩
      ⟨∅, false⟩).1.organizationRunning = false :=
  ⟨reconciler_guard.1 true ⟨.ok [⟨"h1", "Movie", 1⟩], .error "boom", true⟩
      ⟨∅, true⟩ rfl,
    reconciler_guard.2 true ⟨.ok [⟨"h1", "Movie", 1⟩], .error "boom", true⟩
      ⟨∅, false⟩ rfl⟩

/-! ### Theorems: result ranker (C3, C5, C9) -/

theorem seedDesc_trans (a b c : RawResult) (h1 : seedDesc a b)
    (h2 : seedDesc b c) : seedDesc a c := by
  simp only [seedDesc, decide_eq_true_eq] at h1 h2 ⊢
  omega

theorem seedDesc_total (a b : RawResult) : seedDesc a b || seedDesc b a := by
  simp only [seedDesc, Bool.or_eq_true, decide_eq_true_eq]
  omega

/-- C3: the ranked output is sorted by seeder count descending, and two
survivors with equal seeder counts keep the relative order the indexer
reported them in (the embedded sort is the stable sort JavaScript
guarantees for `Array.prototype.sort`). -/
theorem rank_sorted_and_stable (rs : List RawResult) :
    (rank rs).Pairwise (fun x y => y.seeders ≤ x.seeders) ∧
    ∀ a b, seedersD a = seedersD b → [a, b] <+ survivors rs →
      [a, b] <+ ranked rs := by
  constructor
  · have hs : (ranked rs).Pairwise (fun a b => seedDesc a b) :=
      List.sorted_mergeSort seedDesc_trans seedDesc_total (survivors rs)
    have ht : ((ranked rs).take 10).Pairwise (fun a b => seedDesc a b) :=
      List.Pairwise.sublist (List.take_sublist 10 _) hs
    rw [rank, List.pairwise_map]
    refine ht.imp ?_
    intro a b hab
    simpa [seedDesc, formatResult, seedersD] using hab
  · intro a b hab hsub
    have hle : seedDesc a b := by simp [seedDesc, hab]
    simpa [ranked] using
      List.pair_sublist_mergeSort seedDesc_trans seedDesc_total hle hsub

/-- Witness for C3 at a concrete input: two survivors with equal seeder
counts stay in input order in the ranked list. -/
theorem rank_sorted_and_stable_witness :
    [(⟨"A", some 3221225472, some 5, none, none, none, "T", none⟩ : RawResult),
      ⟨"B", some 3221225472, some 5, none, none, none, "T", none⟩] <+
      ranked [⟨"A", some 3221225472, some 5, none, none, none, "T", none⟩,
        ⟨"B", some 3221225472, some 5, none, none, none, "T", none⟩] := by
  have hk : keepSize ⟨"A", some 3221225472, some 5, none, none, none, "T", none⟩ =
      true := by
    norm_num [keepSize, sizeGB]
  have hk' : keepSize ⟨"B", some 3221225472, some 5, none, none, none, "T", none⟩ =
      true := by
    norm_num [keepSize, sizeGB]
  have hs : survivors [⟨"A", some 3221225472, some 5, none, none, none, "T", none⟩,
      ⟨"B", some 3221225472, some 5, none, none, none, "T", none⟩] =
      [⟨"A", some 3221225472, some 5, none, none, none, "T", none⟩,
        ⟨"B", some 3221225472, some 5, none, none, none, "T", none⟩] := by
    simp [survivors, List.filter_cons, hk, hk']
  refine (rank_sorted_and_stable _).2
    ⟨"A", some 3221225472, some 5, none, none, none, "T", none⟩
    ⟨"B", some 3221225472, some 5, none, none, none, "T", none⟩ rfl ?_
  rw [hs]

/-- C5: the ranker output has at most 10 elements; a raw result whose size
in gigabytes is missing (hence 0), below 2 or above 15 never survives the
filter; and every known size carried by the output lies in [2 GB, 15 GB]. -/
theorem rank_size_band (rs : List RawResult) :
    (rank rs).length ≤ 10 ∧
    (∀ r ∈ rs, ¬(2 ≤ sizeGB r ∧ sizeGB r ≤ 15) → r ∉ survivors rs) ∧
    (∀ x ∈ rank rs, ∀ q, x.size = .gb q → 2 ≤ q ∧ q ≤ 15) := by
  refine ⟨?_, ?_, ?_⟩
  · have h := List.length_take_le 10 (ranked rs)
    simpa [rank] using h
  · intro r _ hbad hmem
    simp only [survivors, List.mem_filter, keepSize, Bool.and_eq_true,
      decide_eq_true_eq] at hmem
    exact hbad ⟨hmem.2.1, hmem.2.2⟩
  · intro x hx q hq
    rw [rank] at hx
    obtain ⟨r, hr, rfl⟩ := List.mem_map.mp hx
    have hr' : r ∈ ranked rs := List.Sublist.mem hr (List.take_sublist 10 _)
    have hs : r ∈ survivors rs := by
      rw [ranked] at hr'
      exact List.mem_mergeSort.mp hr'
    have hk := (List.mem_filter.mp hs).2
    simp only [keepSize, Bool.and_eq_true, decide_eq_true_eq] at hk
    by_cases hnt : natTruthy r.Size = true
    · simp only [formatResult, if_pos hnt, SizeText.gb.injEq] at hq
      match hsz : r.Size with
      | none => simp [natTruthy, hsz] at hnt
      | some n =>
        have hn : n ≠ 0 := by simpa [natTruthy, hsz] using hnt
        have hsgb : sizeGB r = (n : ℚ) / (1024 * 1024 * 1024) := by
          simp [sizeGB, hsz, hn]
        have hqv : q = (n : ℚ) / (1024 * 1024 * 1024) := by
          rw [hsz] at hq
          rw [← hq, Option.getD_some]
          ring
        rw [hqv, ← hsgb]
        exact hk
    · simp only [formatResult, if_neg hnt] at hq
      exact absurd hq (by simp)

/-- Witness for C5 at a concrete input: a 20 GiB result is dropped, and the
known size of a surviving 3 GiB result lies in the band. -/
theorem rank_size_band_witness :
    ((⟨"Big", some 21474836480, some 9, none, none, none, "T", none⟩ :
        RawResult) ∉
      survivors [⟨"Big", some 21474836480, some 9, none, none, none, "T", none⟩,
        ⟨"Good", some 3221225472, some 5, none, none, none, "T", none⟩]) ∧
    (2 ≤ ((3221225472 : ℚ) / 1024 / 1024 / 1024) ∧
      ((3221225472 : ℚ) / 1024 / 1024 / 1024) ≤ 15) := by
  have hkb : keepSize ⟨"Big", some 21474836480, some 9, none, none, none, "T", none⟩ =
      false := by
    norm_num [keepSize, sizeGB]
  have hkg : keepSize ⟨"Good", some 3221225472, some 5, none, none, none, "T", none⟩ =
      true := by
    norm_num [keepSize, sizeGB]
  have hrank : rank [⟨"Big", some 21474836480, some 9, none, none, none, "T", none⟩,
      ⟨"Good", some 3221225472, some 5, none, none, none, "T", none⟩] =
      [formatResult ⟨"Good", some 3221225472, some 5, none, none, none, "T", none⟩] := by
    simp [rank, ranked, survivors, List.filter_cons, hkb, hkg]
  constructor
  · refine (rank_size_band
        [⟨"Big", some 21474836480, some 9, none, none, none, "T", none⟩,
          ⟨"Good", some 3221225472, some 5, none, none, none, "T", none⟩]).2.1
      ⟨"Big", some 21474836480, some 9, none, none, none, "T", none⟩
      (by simp) ?_
    norm_num [sizeGB]
  · refine (rank_size_band
        [⟨"Big", some 21474836480, some 9, none, none, none, "T", none⟩,
          ⟨"Good", some 3221225472, some 5, none, none, none, "T", none⟩]).2.2
      (formatResult ⟨"Good", some 3221225472, some 5, none, none, none, "T", none⟩)
      ?_ ((3221225472 : ℚ) / 1024 / 1024 / 1024) ?_
    · rw [hrank]
      exact List.mem_singleton.mpr rfl
    · simp [formatResult, natTruthy]

/-- C9: every element of the ranker output has a known size: a missing
`Size` is treated as 0 GB by the filter and removed by the 2 GB lower
bound, so the `'Unknown'` branch of the formatting step is unreachable. -/
theorem rank_size_always_known (rs : List RawResult) :
    ∀ x ∈ rank rs, x.size ≠ SizeText.unknown := by
  intro x hx
  rw [rank] at hx
  obtain ⟨r, hr, rfl⟩ := List.mem_map.mp hx
  have hr' : r ∈ ranked rs := List.Sublist.mem hr (List.take_sublist 10 _)
  have hs : r ∈ survivors rs := by
    rw [ranked] at hr'
    exact List.mem_mergeSort.mp hr'
  have hk := (List.mem_filter.mp hs).2
  simp only [keepSize, Bool.and_eq_true, decide_eq_true_eq] at hk
  have hnt : natTruthy r.Size = true := by
    by_contra hno
    have hz : sizeGB r = 0 := by
      match hsz : r.Size with
      | none => simp [sizeGB, hsz]
      | some n =>
        have hn : n = 0 := by simpa [natTruthy, hsz] using hno
        simp [sizeGB, hsz, hn]
    rw [hz] at hk
    norm_num at hk
  simp [formatResult, hnt]

/-- Witness for C9 at a concrete input. -/
theorem rank_size_always_known_witness :
    (formatResult
        ⟨"Good", some 3221225472, some 5, none, none, none, "T", none⟩).size ≠
      SizeText.unknown := by
  have hkg : keepSize ⟨"Good", some 3221225472, some 5, none, none, none, "T", none⟩ =
      true := by
    norm_num [keepSize, sizeGB]
  refine rank_size_always_known
    [⟨"Good", some 3221225472, some 5, none, none, none, "T", none⟩]
    (formatResult ⟨"Good", some 3221225472, some 5, none, none, none, "T", none⟩) ?_
  simp [rank, ranked, survivors, List.filter_cons, hkg]

/-! ### Theorems: reorganization engine (C4, C7) -/

/-- C4: when the destination already exists, the item's recorded entry is
the destination-exists one — the spec's `skipped(destination-exists)`
variant of `OrganizeOutcome` — no filesystem operation is attempted for the
item (nothing copied, deleted or overwritten), and the loop continues with
the remaining items, whose results are unchanged. -/
theorem organize_dest_exists_skipped (f : DirEntry) (rest : List DirEntry)
    (hd : f.destExists = true) :
    organizeItem f =
      (.errorItem ⟨f.name, destExistsMsg, normalizeName f.name⟩, []) ∧
    specOutcome (organizeItem f).1 = .skipped ∧
    organizeItems (f :: rest) =
      (⟨(organizeItems rest).1.organized,
        ⟨f.name, destExistsMsg, normalizeName f.name⟩ ::
          (organizeItems rest).1.errors⟩,
       (organizeItems rest).2) := by
  have h1 : organizeItem f =
      (.errorItem ⟨f.name, destExistsMsg, normalizeName f.name⟩, []) := by
    simp [organizeItem, hd]
  refine ⟨h1, ?_, ?_⟩
  · rw [h1]
    simp [specOutcome]
  · simp [organizeItems, h1]

/-- Witness for C4 at a concrete input: a folder whose normalized name is
already present in the library is recorded as destination-exists with no
attempted filesystem action, and a following item is still processed. -/
theorem organize_dest_exists_skipped_witness :
    organizeItem ⟨"Movie.mkv", true, true, none, none⟩ =
      (.errorItem ⟨"Movie.mkv", destExistsMsg, normalizeName "Movie.mkv"⟩, []) ∧
    specOutcome (organizeItem ⟨"Movie.mkv", true, true, none, none⟩).1 =
      .skipped ∧
    organizeItems [⟨"Movie.mkv", true, true, none, none⟩,
        ⟨"Other", true, false, none, none⟩] =
      (⟨(organizeItems [⟨"Other", true, false, none, none⟩]).1.organized,
        ⟨"Movie.mkv", destExistsMsg, normalizeName "Movie.mkv"⟩ ::
          (organizeItems [⟨"Other", true, false, none, none⟩]).1.errors⟩,
       (organizeItems [⟨"Other", true, false, none, none⟩]).2) :=
  organize_dest_exists_skipped ⟨"Movie.mkv", true, true, none, none⟩
    [⟨"Other", true, false, none, none⟩] rfl

/-- C7: a removal of the source subtree is attempted only when the copy
succeeded, and then strictly after the copy; a failing copy or removal
records a failure entry carrying the error detail for that item; and the
loop is compositional, so one item's outcome never aborts the processing of
the remaining items. -/
theorem organize_copy_then_remove :
    (∀ (f : DirEntry) (t : String), .remove t ∈ (organizeItem f).2 →
      f.copyError = none ∧
      (organizeItem f).2 =
        [.copy (pathJoin downloadsDir f.name)
            (pathJoin moviesDir (normalizeName f.name)),
          .remove (pathJoin downloadsDir f.name)]) ∧
    (∀ (f : DirEntry) (e : String), f.destExists = false →
      f.copyError = some e ∨ (f.copyError = none ∧ f.rmError = some e) →
      (organizeItem f).1 = .errorItem ⟨f.name, e, normalizeName f.name⟩) ∧
    (∀ fs1 fs2 : List DirEntry,
      (organizeItems (fs1 ++ fs2)).1.organized =
        (organizeItems fs1).1.organized ++ (organizeItems fs2).1.organized ∧
      (organizeItems (fs1 ++ fs2)).1.errors =
        (organizeItems fs1).1.errors ++ (organizeItems fs2).1.errors ∧
      (organizeItems (fs1 ++ fs2)).2 =
        (organizeItems fs1).2 ++ (organizeItems fs2).2) := by
  refine ⟨?_, ?_, ?_⟩
  · intro f t hmem
    by_cases hd : f.destExists
    · simp [organizeItem, hd] at hmem
    · match hc : f.copyError with
      | some e => simp [organizeItem, hd, hc] at hmem
      | none =>
        match hr : f.rmError with
        | some e => exact ⟨rfl, by simp [organizeItem, hd, hc, hr]⟩
        | none => exact ⟨rfl, by simp [organizeItem, hd, hc, hr]⟩
  · intro f e hd hor
    rcases hor with hc | ⟨hc, hr⟩
    · simp [organizeItem, hd, hc]
    · simp [organizeItem, hd, hc, hr]
  · intro fs1 fs2
    induction fs1 with
    | nil => simp [organizeItems]
    | cons f fs ih =>
      rcases ho : (organizeItem f).1 with e | e <;>
        simp [organizeItems, ho, ih.1, ih.2.1, ih.2.2]

/-- Witness for C7 at a concrete input: an item whose copy succeeds and
whose removal fails attempts copy before remove and is recorded as a
failure carrying the error detail. -/
theorem organize_copy_then_remove_witness :
    (organizeItem ⟨"A", true, false, none, some "EPERM"⟩).2 =
      [.copy (pathJoin downloadsDir "A") (pathJoin moviesDir (normalizeName "A")),
        .remove (pathJoin downloadsDir "A")] ∧
    (organizeItem ⟨"A", true, false, none, some "EPERM"⟩).1 =
      .errorItem ⟨"A", "EPERM", normalizeName "A"⟩ := by
  constructor
  · exact (organize_copy_then_remove.1 ⟨"A", true, false, none, some "EPERM"⟩
      (pathJoin downloadsDir "A") (by simp [organizeItem])).2
  · exact organize_copy_then_remove.2.1 ⟨"A", true, false, none, some "EPERM"⟩
      "EPERM" rfl (.inr ⟨rfl, rfl⟩)

/-! ### Theorems: name normalization (C6) -/

theorem mem_collapseRuns {p : Char → Bool} {rep : Char} :
    ∀ l : List Char, ∀ c ∈ collapseRuns p rep l,
      c = rep ∨ (c ∈ l ∧ p c = false)
  | [], c => by simp [collapseRuns]
  | ch :: cs, c => by
    intro hc
    by_cases hp : p ch
    · simp only [collapseRuns] at hc
      rw [if_pos hp] at hc
      rcases List.mem_cons.mp hc with rfl | hmem
      · exact .inl rfl
      · rcases mem_collapseRuns (cs.dropWhile p) c hmem with h | ⟨hm, hpc⟩
        · exact .inl h
        · exact .inr ⟨List.mem_cons_of_mem ch
            (List.Sublist.mem hm (cs.dropWhile_sublist p)), hpc⟩
    · simp only [collapseRuns] at hc
      rw [if_neg hp] at hc
      rcases List.mem_cons.mp hc with rfl | hmem
      · exact .inr ⟨List.mem_cons_self _ _, by simpa using hp⟩
      · rcases mem_collapseRuns cs c hmem with h | ⟨hm, hpc⟩
        · exact .inl h
        · exact .inr ⟨List.mem_cons_of_mem ch hm, hpc⟩
termination_by l => l.length
decreasing_by
  · have h := (cs.dropWhile_sublist p).length_le
    simp only [List.length_cons]
    omega
  · simp only [List.length_cons]
    omega

theorem collapseRuns_of_forall_not {p : Char → Bool} {rep : Char} :
    ∀ l : List Char, (∀ c ∈ l, p c = false) → collapseRuns p rep l = l := by
  intro l
  induction l with
  | nil =>
    intro h
    simp [collapseRuns]
  | cons c cs ih =>
    intro h
    have hpc : p c = false := h c (List.mem_cons_self _ _)
    simp only [collapseRuns]
    rw [if_neg (by simp [hpc]), ih (fun x hx => h x (List.mem_cons_of_mem _ hx))]

theorem collapseRuns_eq_self {p : Char → Bool} {rep : Char} :
    ∀ l : List Char, (∀ c ∈ l, p c = true → c = rep) →
      l.Chain' (fun a b => ¬(p a = true ∧ p b = true)) →
      collapseRuns p rep l = l := by
  intro l
  induction l with
  | nil =>
    intro h1 h2
    simp [collapseRuns]
  | cons c cs ih =>
    intro hrep hch
    by_cases hp : p c
    · have hcrep : c = rep := hrep c (List.mem_cons_self _ _) hp
      have hdrop : cs.dropWhile p = cs := by
        match cs with
        | [] => rfl
        | b :: t =>
          have hR := (List.chain'_cons'.mp hch).1 b (by simp)
          have hpb : p b = false := by
            cases hpb : p b
            · rfl
            · exact absurd ⟨hp, hpb⟩ hR
          rw [List.dropWhile_cons, if_neg (by simp [hpb])]
      simp only [collapseRuns]
      rw [if_pos hp, hdrop,
        ih (fun x hx hpx => hrep x (List.mem_cons_of_mem _ hx) hpx) hch.tail,
        hcrep]
    · simp only [collapseRuns]
      rw [if_neg hp,
        ih (fun x hx hpx => hrep x (List.mem_cons_of_mem _ hx) hpx) hch.tail]

theorem dropWhile_head_not {p : Char → Bool} :
    ∀ l : List Char, ∀ b ∈ (l.dropWhile p).head?, p b = false := by
  intro l
  induction l with
  | nil => simp
  | cons c cs ih =>
    intro b hb
    by_cases hp : p c
    · rw [List.dropWhile_cons, if_pos hp] at hb
      exact ih b hb
    · rw [List.dropWhile_cons, if_neg hp] at hb
      simp only [List.head?_cons, Option.mem_def, Option.some.injEq] at hb
      subst hb
      simpa using hp

theorem collapseRuns_head_not {p : Char → Bool} {rep : Char} :
    ∀ l : List Char, (∀ b ∈ l.head?, p b = false) →
      ∀ b ∈ (collapseRuns p rep l).head?, p b = false := by
  intro l hl b hb
  match l with
  | [] => simp [collapseRuns] at hb
  | c :: cs =>
    have hpc : p c = false := hl c (by simp)
    have hcol : collapseRuns p rep (c :: cs) = c :: collapseRuns p rep cs := by
      simp only [collapseRuns]
      rw [if_neg (by simp [hpc])]
    rw [hcol] at hb
    simp only [List.head?_cons, Option.mem_def, Option.some.injEq] at hb
    subst hb
    exact hpc

theorem chain'_collapseRuns {p : Char → Bool} {rep : Char} :
    ∀ l : List Char,
      (collapseRuns p rep l).Chain' (fun a b => ¬(p a = true ∧ p b = true))
  | [] => by simp [collapseRuns]
  | c :: cs => by
    by_cases hp : p c
    · simp only [collapseRuns]
      rw [if_pos hp, List.chain'_cons']
      refine ⟨?_, chain'_collapseRuns (cs.dropWhile p)⟩
      intro b hb
      have hpb : p b = false :=
        collapseRuns_head_not (cs.dropWhile p) (dropWhile_head_not cs) b hb
      simp [hpb]
    · simp only [collapseRuns]
      rw [if_neg hp, List.chain'_cons']
      refine ⟨?_, chain'_collapseRuns cs⟩
      intro b _ hcontra
      exact hp hcontra.1
termination_by l => l.length
decreasing_by
  · have h := (cs.dropWhile_sublist p).length_le
    simp only [List.length_cons]
    omega
  · simp only [List.length_cons]
    omega

theorem dropWhile_isSuffix {p : Char → Bool} : ∀ l : List Char,
    l.dropWhile p <:+ l := by
  intro l
  induction l with
  | nil => simp
  | cons c cs ih =>
    rw [List.dropWhile_cons]
    split
    · exact ih.trans (List.suffix_cons c cs)
    · exact List.suffix_rfl

theorem trimRight_isPre (l : List Char) : trimRight l <+: l := by
  refine ⟨(l.reverse.takeWhile jsWhitespace).reverse, ?_⟩
  rw [trimRight, ← List.reverse_append, List.takeWhile_append_dropWhile,
    List.reverse_reverse]

theorem head?_eq_of_pre {l m : List Char} (h : l <+: m) (hne : l ≠ []) :
    m.head? = l.head? := by
  obtain ⟨t, rfl⟩ := h
  match l, hne with
  | a :: l', _ => rfl

theorem mem_of_mem_jsTrim {c : Char} {l : List Char} (h : c ∈ jsTrim l) :
    c ∈ l := by
  rw [jsTrim, trimRight] at h
  have h1 := List.mem_reverse.mp h
  have h2 := List.Sublist.mem h1 (List.dropWhile_sublist _)
  have h3 := List.mem_reverse.mp h2
  exact List.Sublist.mem h3 (List.dropWhile_sublist _)

theorem jsTrim_head_not (l : List Char) :
    ∀ b ∈ (jsTrim l).head?, jsWhitespace b = false := by
  intro b hb
  by_cases hne : jsTrim l = []
  · rw [hne] at hb
    simp at hb
  · have heq : (trimLeft l).head? = (jsTrim l).head? :=
      head?_eq_of_pre (trimRight_isPre (trimLeft l)) hne
    rw [← heq] at hb
    exact dropWhile_head_not l b hb

theorem jsTrim_getLast_not (l : List Char) :
    ∀ b ∈ (jsTrim l).getLast?, jsWhitespace b = false := by
  intro b hb
  rw [jsTrim, trimRight, List.getLast?_reverse] at hb
  exact dropWhile_head_not _ b hb

theorem jsTrim_eq_self {l : List Char}
    (h1 : ∀ b ∈ l.head?, jsWhitespace b = false)
    (h2 : ∀ b ∈ l.getLast?, jsWhitespace b = false) : jsTrim l = l := by
  have hleft : trimLeft l = l := by
    match l with
    | [] => rfl
    | c :: cs =>
      have hc := h1 c (by simp)
      rw [trimLeft, List.dropWhile_cons, if_neg (by simp [hc])]
  rw [jsTrim, hleft, trimRight]
  have hrev : l.reverse.dropWhile jsWhitespace = l.reverse := by
    match hr : l.reverse with
    | [] => rfl
    | c :: cs =>
      have hc : c ∈ l.getLast? := by
        rw [← List.head?_reverse, hr]
        simp
      have := h2 c hc
      rw [List.dropWhile_cons, if_neg (by simp [this])]
  rw [hrev, List.reverse_reverse]

theorem matchesAt_dot {l' : List Char} {ps : List (List Char)}
    (h : matchesAt l' (['.'] :: ps) = true) : ('.' : Char) ∈ l' := by
  match l' with
  | [] => simp [matchesAt] at h
  | a :: t =>
    simp only [matchesAt, List.zip_cons_cons, List.all_cons, Bool.and_eq_true,
      decide_eq_true_eq] at h
    have ha : a = '.' := by simpa using h.2.1
    exact ha ▸ List.mem_cons_self a t

theorem stripExt_of_no_dot {l : List Char} (h : ('.' : Char) ∉ l) :
    stripExt l = l := by
  rw [stripExt, if_neg]
  intro hany
  rw [List.any_eq_true] at hany
  obtain ⟨pat, hpat, hcond⟩ := hany
  rw [Bool.and_eq_true] at hcond
  have hdot : ('.' : Char) ∈ l.drop (l.length - 4) := by
    simp only [extPatterns, List.mem_cons, List.not_mem_nil, or_false] at hpat
    rcases hpat with rfl | rfl | rfl
    all_goals exact matchesAt_dot hcond.2
  exact h (List.mem_of_mem_drop hdot)

theorem cleanName_char_shape (l : List Char) :
    ∀ c ∈ cleanName l,
      c = ' ' ∨
        (dotDashChar c = false ∧ bracketChar c = false ∧
          jsWhitespace c = false) := by
  intro c hc
  rw [cleanName] at hc
  have h4 := mem_collapseRuns _ c (mem_of_mem_jsTrim hc)
  rcases h4 with rfl | ⟨h3, hws⟩
  · exact .inl rfl
  · rcases mem_collapseRuns _ c h3 with rfl | ⟨h2, hdd⟩
    · exact .inl rfl
    · have hbr : bracketChar c = false := by
        have hf := (List.mem_filter.mp h2).2
        simpa using hf
      exact .inr ⟨hdd, hbr, hws⟩

theorem cleanName_invariant (l : List Char) :
    cleanNameInvariant (cleanName l) := by
  refine ⟨?_, ?_, ?_, ?_, ?_, ?_⟩
  · intro c hc
    rcases cleanName_char_shape l c hc with rfl | ⟨h, _, _⟩
    · decide
    · exact h
  · intro c hc
    rcases cleanName_char_shape l c hc with rfl | ⟨_, h, _⟩
    · decide
    · exact h
  · intro c hc hws
    rcases cleanName_char_shape l c hc with rfl | ⟨_, _, h⟩
    · rfl
    · rw [hws] at h
      cases h
  · have hchain := @chain'_collapseRuns jsWhitespace ' '
      (collapseRuns dotDashChar ' ' ((stripExt l).filter (fun c => !bracketChar c)))
    have hinf : cleanName l <:+:
        collapseRuns jsWhitespace ' '
          (collapseRuns dotDashChar ' '
            ((stripExt l).filter (fun c => !bracketChar c))) := by
      rw [cleanName, jsTrim]
      exact List.IsInfix.trans (trimRight_isPre _).isInfix
        (dropWhile_isSuffix _).isInfix
    exact hchain.infix hinf
  · exact jsTrim_head_not _
  · exact jsTrim_getLast_not _

theorem cleanName_eq_self {l : List Char} (h : cleanNameInvariant l) :
    cleanName l = l := by
  obtain ⟨hdd, hbr, hws1, hch, hhead, hlast⟩ := h
  have hse : stripExt l = l := by
    refine stripExt_of_no_dot fun hin => ?_
    have := hdd '.' hin
    simp [dotDashChar] at this
  have hf : l.filter (fun c => !bracketChar c) = l :=
    List.filter_eq_self.mpr (fun a ha => by simp [hbr a ha])
  have hc3 : collapseRuns dotDashChar ' ' l = l :=
    collapseRuns_of_forall_not l hdd
  have hc4 : collapseRuns jsWhitespace ' ' l = l :=
    collapseRuns_eq_self l hws1 hch
  rw [cleanName, hse, hf, hc3, hc4]
  exact jsTrim_eq_self hhead hlast

/-- C6: the name-normalization transform (strip trailing video extension,
remove brackets, collapse dot/underscore/hyphen runs and whitespace runs to
single spaces, trim) is idempotent: the output contains no character any
stage acts on, so a second pass is the identity. -/
theorem normalizeName_idempotent (s : String) :
    normalizeName (normalizeName s) = normalizeName s := by
  simp only [normalizeName]
  congr 1
  exact cleanName_eq_self (cleanName_invariant s.data)

end MediaServer
